import Mathlib

/-
Verification of the grams repository: the weighted-sampling binary search
of src/grams/grams.py (Gram.bin_search), the separate-chaining hash table
of src/grams/hashtable.py, and the lazy-rebuild incremental distributions
(Listogram, Dictogram) of src/grams/grams.py.

Draws and cumulative values are embedded as rationals: Python floats such
as 2.5 and 5.9 compare with the integer cumulative counts 1, 3, 6 exactly
as the corresponding rationals do.  Items, words and keys are embedded as
naturals.  Classes whose code is not among the source files (LinkedList
from src/grams/linkedlist.py, FreqDist and Sample from src/grams/stats.py,
and the helpers of src/grams/utils.py) are modelled from the spec where
noted.
-/

namespace Grams

/-- One iteration of the while-loop of Gram.bin_search in
src/grams/grams.py, lines 55-63.  The loop state is the pair of Python
variables lo and hi; the cumulative values of the array of namedtuples are
the list cum.  A step yields either the next loop state, or the loop's
answer: some mid for the return inside the loop, none for the return None
that follows loop exit (reached exactly when lo is greater than hi). -/
def binStep (cum : List ℚ) (prob : ℚ) (lo hi : Nat) : (Nat × Nat) ⊕ Option Nat :=
  if lo ≤ hi then
    let mid := (lo + hi) / 2
    if cum.getD mid 0 ≤ prob ∧ (mid = cum.length - 1 ∨ prob < cum.getD (mid + 1) 0) then
      Sum.inr (some mid)
    else if cum.getD mid 0 < prob then
      Sum.inl (mid + 1, hi)
    else
      Sum.inl (lo, mid)
  else
    Sum.inr none

/-- The while-loop of Gram.bin_search run for at most fuel iterations.
none means the fuel ran out with the loop still running; some none means
the Python function returned None; some (some i) means it returned i. -/
def binLoop (cum : List ℚ) (prob : ℚ) : Nat → Nat → Nat → Option (Option Nat)
  | 0, _, _ => none
  | fuel + 1, lo, hi =>
    match binStep cum prob lo hi with
    | Sum.inr r => some r
    | Sum.inl (lo', hi') => binLoop cum prob fuel lo' hi'

/-- Gram.bin_search from src/grams/grams.py, lines 49-64, with explicit
fuel.  On an empty array Python sets hi to -1 and the loop body never
runs, so the function returns None at once; on a nonempty array the loop
starts at lo = 0, hi = length - 1. -/
def bin_search (fuel : Nat) (cum : List ℚ) (prob : ℚ) : Option (Option Nat) :=
  if cum.length = 0 then some none
  else binLoop cum prob fuel 0 (cum.length - 1)

/-- The spec's selection rule, stated in its own words for comparison with
bin_search: the smallest index i such that cumulative at i exceeds the
draw. -/
def smallestIndexAbove (cum : List ℚ) (draw : ℚ) : Option Nat :=
  cum.findIdx? (fun c => decide (draw < c))

/-- Modelled from the spec, section 4.1: the find operation of a Bucket
(the LinkedList class of src/grams/linkedlist.py is not among the source
files).  A bucket is an ordered sequence of key-value entries; find is a
linear scan returning the first entry whose key matches, or none. -/
def bucketFind : List (Nat × Nat) → Nat → Option (Nat × Nat)
  | [], _ => none
  | e :: rest, k => if e.1 = k then some e else bucketFind rest k

/-- Modelled from the spec, section 4.1: upsert replaces the value of the
first entry with the given key in place, else appends a new entry; this is
what HashTable.set reaches through the bucket's replace call. -/
def bucketUpsert : List (Nat × Nat) → Nat → Nat → List (Nat × Nat)
  | [], k, v => [(k, v)]
  | e :: rest, k, v => if e.1 = k then (k, v) :: rest else e :: bucketUpsert rest k v

/-- Modelled from the spec, section 4.1: remove deletes the first matching
entry and fails with NotFound (none here) when no entry matches; this is
what HashTable.delete reaches through the bucket's replace call. -/
def bucketRemove : List (Nat × Nat) → Nat → Option (List (Nat × Nat))
  | [], _ => none
  | e :: rest, k => if e.1 = k then some rest else (bucketRemove rest k).map (fun b => e :: b)

/-- A bucket whose keys appear at most once. -/
def NodupKeys (b : List (Nat × Nat)) : Prop :=
  (b.map Prod.fst).Nodup

/-- The HashTable of src/grams/hashtable.py: a fixed list of buckets plus
the tracked entry count table_size (an integer, as in Python, since the
source updates it by arithmetic that could in principle go negative). -/
structure HashTable where
  buckets : List (List (Nat × Nat))
  table_size : Int

/-- HashTable._bucket_index, lines 30-33: hash of the key modulo the
number of buckets.  The hash function is a parameter of the embedding. -/
def bucketIndex (hash : Nat → Nat) (t : HashTable) (k : Nat) : Nat :=
  hash k % t.buckets.length

/-- HashTable.__init__, lines 11-16: init_size empty buckets, entry count
zero. -/
def hashInit (initSize : Nat) : HashTable :=
  ⟨List.replicate initSize [], 0⟩

/-- HashTable.get, lines 80-91: find in the bucket at the key's index;
none models the raised KeyError. -/
def hashGet (hash : Nat → Nat) (t : HashTable) (k : Nat) : Option Nat :=
  match bucketFind (t.buckets.getD (bucketIndex hash t k) []) k with
  | some e => some e.2
  | none => none

/-- HashTable.set, lines 93-108: subtract the bucket's length from
table_size, upsert, then add the new length back. -/
def hashSet (hash : Nat → Nat) (t : HashTable) (k v : Nat) : HashTable :=
  let i := bucketIndex hash t k
  let old := t.buckets.getD i []
  let new := bucketUpsert old k v
  ⟨t.buckets.set i new, t.table_size - old.length + new.length⟩

/-- HashTable.delete, lines 110-122: remove from the bucket and decrement
table_size on success; on a missing key the KeyError propagates before the
decrement, leaving the table unchanged.  The boolean records success. -/
def hashDelete (hash : Nat → Nat) (t : HashTable) (k : Nat) : HashTable × Bool :=
  let i := bucketIndex hash t k
  match bucketRemove (t.buckets.getD i []) k with
  | none => (t, false)
  | some b => (⟨t.buckets.set i b, t.table_size - 1⟩, true)

/-- HashTable.length, lines 62-66: the sum of all bucket lengths. -/
def hashLength (t : HashTable) : Nat :=
  (t.buckets.map List.length).sum

/-- A mutating hash table operation: set a key to a value, or delete a
key. -/
inductive Op where
  | set (k v : Nat)
  | del (k : Nat)
deriving DecidableEq

/-- Apply one operation to the table; a failing delete leaves the table
unchanged. -/
def applyOp (hash : Nat → Nat) (t : HashTable) : Op → HashTable
  | .set k v => hashSet hash t k v
  | .del k => (hashDelete hash t k).1

/-- Apply a sequence of operations in order. -/
def runOps (hash : Nat → Nat) (t : HashTable) (ops : List Op) : HashTable :=
  ops.foldl (applyOp hash) t

/-- One step of the reference semantics for a single key: a set of the key
overwrites, a delete of the key clears, anything else is ignored. -/
def wstep (k : Nat) (acc : Option Nat) : Op → Option Nat
  | .set k' v => if k' = k then some v else acc
  | .del k' => if k' = k then none else acc

/-- The claim's reference semantics: the value of the most recent set of
the key not followed by a delete of the key, else none. -/
def lastWrite (ops : List Op) (k : Nat) : Option Nat :=
  ops.foldl (wstep k) none

/-- Every bucket of the table has pairwise distinct keys. -/
def TableInv (t : HashTable) : Prop :=
  ∀ b ∈ t.buckets, NodupKeys b

/-- The tracked entry count agrees with the sum of bucket lengths. -/
def SizeInv (t : HashTable) : Prop :=
  t.table_size = (hashLength t : Int)

/-- Modelled from the spec, section 4.3: the word-to-count mapping of
FreqDist (src/grams/stats.py is not among the source files), kept in
insertion order; lookup returns the stored count of a word, or none. -/
def lookupCount : List (Nat × Nat) → Nat → Option Nat
  | [], _ => none
  | e :: rest, w => if e.1 = w then some e.2 else lookupCount rest w

/-- Modelled from the spec, sections 3 and 4.5: one step of
merge_data_containing_ints (src/grams/utils.py is not among the source
files): a delta is summed into the existing entry for its word in place,
or appended as a new last entry. -/
def mergeAdd : List (Nat × Nat) → Nat × Nat → List (Nat × Nat)
  | [], d => [d]
  | e :: rest, d => if e.1 = d.1 then (e.1, e.2 + d.2) :: rest else e :: mergeAdd rest d

/-- Merging a whole list of word-delta pairs into a mapping, in order. -/
def mergeInts (m : List (Nat × Nat)) (deltas : List (Nat × Nat)) : List (Nat × Nat) :=
  deltas.foldl mergeAdd m

/-- The total delta a list of word-delta pairs carries for one word. -/
def sumDeltas : List (Nat × Nat) → Nat → Nat
  | [], _ => 0
  | d :: rest, w => (if d.1 = w then d.2 else 0) + sumDeltas rest w

/-- The Listogram of src/grams/grams.py, lines 96-158: the mapping
word_to_freq held by the FreqDist base, the pending buffer
temp_word_to_freq of word-count pairs, and the rebuild trigger.  The
queued flag is modelled from the spec, sections 1 and 3: it stands for
the signal that an add-count call has been queued since the last read,
which the source reads off the call log kept by the LogMethodCalls
metaclass of src/grams/utils.py (not among the source files). -/
structure Listogram where
  word_to_freq : List (Nat × Nat)
  temp_word_to_freq : List (Nat × Nat)
  queued : Bool
deriving DecidableEq

/-- Listogram.__init__, lines 101-113: an empty buffer and a mapping of
the given counts (Counter of the word list). -/
def Listogram.ofCounts (counts : List (Nat × Nat)) : Listogram :=
  ⟨counts, [], false⟩

/-- Listogram.add_count, lines 115-118: append the word-count pair to the
buffer; never rebuilds. -/
def Listogram.add_count (s : Listogram) (w c : Nat) : Listogram :=
  ⟨s.word_to_freq, s.temp_word_to_freq ++ [(w, c)], true⟩

/-- Listogram.rebuild_with_latent_wordcounts, lines 150-158: when the
trigger says an add-count was queued, reconstruct the mapping by merging
the buffer into it.  The source does not clear temp_word_to_freq. -/
def Listogram.rebuild_with_latent_wordcounts (s : Listogram) : Listogram :=
  if s.queued then
    ⟨mergeInts s.word_to_freq s.temp_word_to_freq, s.temp_word_to_freq, false⟩
  else s

/-- Listogram.frequency, lines 120-123: rebuild, then the stored count of
the word with default 0. -/
def Listogram.frequency (s : Listogram) (w : Nat) : Nat :=
  (lookupCount s.rebuild_with_latent_wordcounts.word_to_freq w).getD 0

/-- A burst of add_count calls, applied in order. -/
def Listogram.addSeq (s : Listogram) (adds : List (Nat × Nat)) : Listogram :=
  adds.foldl (fun s d => s.add_count d.1 d.2) s

/-- The Dictogram of src/grams/grams.py, lines 161-212: same shape as
Listogram; its buffer is a defaultdict summing counts per word as they
are added.  The queued flag is modelled from the spec as for Listogram. -/
structure Dictogram where
  word_to_freq : List (Nat × Nat)
  temp_word_to_freq : List (Nat × Nat)
  queued : Bool
deriving DecidableEq

/-- Dictogram.__init__, lines 172-182. -/
def Dictogram.ofCounts (counts : List (Nat × Nat)) : Dictogram :=
  ⟨counts, [], false⟩

/-- Dictogram.add_count, lines 188-191: sum the count into the buffer's
entry for the word (a new word is appended, as defaultdict insertion
order does). -/
def Dictogram.add_count (s : Dictogram) (w c : Nat) : Dictogram :=
  ⟨s.word_to_freq, mergeAdd s.temp_word_to_freq (w, c), true⟩

/-- Dictogram.rebuild_with_latent_wordcounts, lines 204-212: same merge as
Listogram; the buffer is again not cleared. -/
def Dictogram.rebuild_with_latent_wordcounts (s : Dictogram) : Dictogram :=
  if s.queued then
    ⟨mergeInts s.word_to_freq s.temp_word_to_freq, s.temp_word_to_freq, false⟩
  else s

/-- Dictogram.frequency, lines 193-196: rebuild, then the stored count of
the word with default 0. -/
def Dictogram.frequency (s : Dictogram) (w : Nat) : Nat :=
  (lookupCount s.rebuild_with_latent_wordcounts.word_to_freq w).getD 0

/-- A burst of add_count calls, applied in order. -/
def Dictogram.addSeq (s : Dictogram) (adds : List (Nat × Nat)) : Dictogram :=
  adds.foldl (fun s d => s.add_count d.1 d.2) s

/-- Modelled from the spec, section 4.3: Histogram.frequency
(src/grams/grams.py, lines 89-90) returns the FreqDist lookup of the
word, which by the spec's contract is the stored count or 0 if absent. -/
def histFrequency (m : List (Nat × Nat)) (w : Nat) : Nat :=
  (lookupCount m w).getD 0

end Grams

namespace Grams

/-- When the head cumulative value already exceeds prob, the loop state
with lo = hi = 0 steps to itself, so the loop never finishes. -/
theorem binLoop_stuck (cum : List ℚ) (prob : ℚ) (h : ¬ cum.getD 0 0 ≤ prob) :
    ∀ fuel, binLoop cum prob fuel 0 0 = none := by
  intro fuel
  induction fuel with
  | zero => rfl
  | succ n ih =>
    have hstep : binStep cum prob 0 0 = Sum.inl (0, 0) := by
      unfold binStep
      have hle : (0 : Nat) ≤ 0 := le_refl 0
      rw [if_pos hle]
      have hmid : (0 + 0) / 2 = 0 := rfl
      have hnot : ¬ (cum.getD ((0 + 0) / 2) 0 ≤ prob ∧
          ((0 + 0) / 2 = cum.length - 1 ∨ prob < cum.getD ((0 + 0) / 2 + 1) 0)) := by
        rw [hmid]
        intro hc
        exact h hc.1
      rw [if_neg hnot]
      have hnlt : ¬ cum.getD ((0 + 0) / 2) 0 < prob := by
        rw [hmid]
        intro hc
        exact h (le_of_lt hc)
      rw [if_neg hnlt]
    rw [binLoop, hstep]
    exact ih

/-- When binStep returns an index out of the loop, the branch condition of
that return held at the index. -/
theorem binStep_ret (cum : List ℚ) (prob : ℚ) (lo hi i : Nat)
    (h : binStep cum prob lo hi = Sum.inr (some i)) :
    cum.getD i 0 ≤ prob ∧ (i = cum.length - 1 ∨ prob < cum.getD (i + 1) 0) := by
  simp only [binStep] at h
  split at h
  · split at h
    · rename_i hc
      simp only [Sum.inr.injEq, Option.some.injEq] at h
      exact h ▸ hc
    · split at h <;> simp at h
  · simp at h

/-- When binStep continues the loop, the next state is either
(mid + 1, hi) after cum at mid fell below prob, or (lo, mid) otherwise. -/
theorem binStep_lo (cum : List ℚ) (prob : ℚ) (lo hi lo' hi' : Nat)
    (h : binStep cum prob lo hi = Sum.inl (lo', hi')) :
    lo ≤ hi ∧
    ((cum.getD ((lo + hi) / 2) 0 < prob ∧ lo' = (lo + hi) / 2 + 1 ∧ hi' = hi) ∨
     (prob ≤ cum.getD ((lo + hi) / 2) 0 ∧ lo' = lo ∧ hi' = (lo + hi) / 2)) := by
  simp only [binStep] at h
  split at h
  · rename_i hlohi
    refine ⟨hlohi, ?_⟩
    split at h
    · simp at h
    · split at h
      · rename_i hlt
        simp only [Sum.inl.injEq, Prod.mk.injEq] at h
        exact Or.inl ⟨hlt, h.1.symm, h.2.symm⟩
      · rename_i hnlt
        simp only [Sum.inl.injEq, Prod.mk.injEq] at h
        exact Or.inr ⟨not_lt.mp hnlt, h.1.symm, h.2.symm⟩
  · simp at h

/-- Partial correctness of the loop: an index it returns satisfies the
return branch's condition. -/
theorem binLoop_sound (cum : List ℚ) (prob : ℚ) :
    ∀ fuel lo hi i, binLoop cum prob fuel lo hi = some (some i) →
      cum.getD i 0 ≤ prob ∧ (i = cum.length - 1 ∨ prob < cum.getD (i + 1) 0) := by
  intro fuel
  induction fuel with
  | zero => intro lo hi i h; simp [binLoop] at h
  | succ n ih =>
    intro lo hi i h
    rw [binLoop] at h
    rcases hs : binStep cum prob lo hi with ⟨lo', hi'⟩ | r
    · rw [hs] at h
      exact ih lo' hi' i h
    · rw [hs] at h
      simp only [Option.some.injEq] at h
      exact binStep_ret cum prob lo hi i (h ▸ hs)

/-- The loop never reaches the return None after the loop: whenever the
range is nonempty, inside the array, and hi is the last index or carries a
cumulative value at least prob, the loop cannot exit with lo above hi. -/
theorem binLoop_never_none (cum : List ℚ) (prob : ℚ) :
    ∀ fuel lo hi, lo ≤ hi → hi < cum.length →
      (hi = cum.length - 1 ∨ prob ≤ cum.getD hi 0) →
      binLoop cum prob fuel lo hi ≠ some none := by
  intro fuel
  induction fuel with
  | zero => intro lo hi _ _ _ h; simp [binLoop] at h
  | succ n ih =>
    intro lo hi hlo hhi hinv h
    rw [binLoop] at h
    rcases hs : binStep cum prob lo hi with ⟨lo', hi'⟩ | r
    · rw [hs] at h
      rcases binStep_lo cum prob lo hi lo' hi' hs with ⟨-, hcase⟩
      rcases hcase with ⟨hlt, hlo', hhi'⟩ | ⟨hge, hlo', hhi'⟩
      · rw [hlo', hhi'] at h
        have hne : (lo + hi) / 2 < hi := by
          by_contra hcon
          have heq : (lo + hi) / 2 = hi := by omega
          rcases hinv with hl | hp
          · have : binStep cum prob lo hi = Sum.inr (some ((lo + hi) / 2)) := by
              simp only [binStep, if_pos hlo]
              rw [if_pos ⟨le_of_lt hlt, Or.inl (heq.trans hl)⟩]
            rw [this] at hs
            simp at hs
          · rw [heq] at hlt
            exact absurd hlt (not_lt.mpr hp)
        exact ih ((lo + hi) / 2 + 1) hi (by omega) hhi hinv h
      · rw [hlo', hhi'] at h
        exact ih lo ((lo + hi) / 2) (by omega) (by omega) (Or.inr hge) h
    · rw [hs] at h
      simp only [Option.some.injEq] at h
      subst h
      simp only [binStep] at hs
      split at hs
      · split at hs
        · simp at hs
        · split at hs <;> simp at hs
      · rename_i hnle
        omega

/-- C10: the claim says Gram.bin_search terminates for every array of
entries and every probe value, including probes strictly below the first
cumulative entry.  The code does not: on the one-entry table with
cumulative value 1 and probe 0, the loop reaches lo = hi = 0, takes the
else branch hi = mid = 0, and repeats that state forever, so no amount of
fuel finishes the search. -/
theorem c10_bin_search_diverges_on_low_probe :
    ∀ fuel, bin_search fuel [(1 : ℚ)] 0 = none := by
  intro fuel
  have h : ¬ ([(1 : ℚ)].getD 0 0 ≤ 0) := by norm_num
  have hloop := binLoop_stuck [(1 : ℚ)] 0 h fuel
  simpa [bin_search] using hloop

/-- C1 counterexample: the claim says the search selects the smallest
index whose cumulative value exceeds the draw, so with cumulative table
1, 3, 6 (items a, b, c) and draw 2.5 it should select index 1 (item b);
the code returns index 0 (item a) instead. -/
theorem c1_counterexample :
    bin_search 8 [1, 3, 6] (5 / 2 : ℚ) = some (some 0) ∧
    smallestIndexAbove [1, 3, 6] (5 / 2 : ℚ) = some 1 := by
  constructor
  · norm_num [bin_search, binLoop, binStep]
  · norm_num [smallestIndexAbove, List.findIdx?]

/-- C1 amended: whenever Gram.bin_search returns an index i, that index
satisfies cumulative at i at most the draw and, unless i is the last
index, cumulative at i + 1 above the draw; it is one interval below the
spec's smallest-index-above rule.  On the cumulative table 1, 3, 6 of the
claim (items a, b, c): draw 2.5 selects index 0 (item a), draw 5.9
selects index 1 (item b), draw 3.0 selects index 1 (item b), and draw 0.0
never returns at all. -/
theorem c1_bin_search_rule :
    (∀ fuel cum prob i, bin_search fuel cum prob = some (some i) →
      cum.getD i 0 ≤ prob ∧ (i = cum.length - 1 ∨ prob < cum.getD (i + 1) 0)) ∧
    bin_search 8 [1, 3, 6] (5 / 2 : ℚ) = some (some 0) ∧
    bin_search 8 [1, 3, 6] (59 / 10 : ℚ) = some (some 1) ∧
    bin_search 8 [1, 3, 6] (3 : ℚ) = some (some 1) ∧
    (∀ fuel, bin_search fuel [1, 3, 6] (0 : ℚ) = none) := by
  refine ⟨?_, ?_, ?_, ?_, ?_⟩
  · intro fuel cum prob i h
    rw [bin_search] at h
    split at h
    · simp at h
    · exact binLoop_sound cum prob fuel 0 (cum.length - 1) i h
  · norm_num [bin_search, binLoop, binStep]
  · norm_num [bin_search, binLoop, binStep]
  · norm_num [bin_search, binLoop, binStep]
  · intro fuel
    have hstep2 : binStep [1, 3, 6] (0 : ℚ) 0 2 = Sum.inl (0, 1) := by
      norm_num [binStep]
    have hstep1 : binStep [1, 3, 6] (0 : ℚ) 0 1 = Sum.inl (0, 0) := by
      norm_num [binStep]
    have hstuck := binLoop_stuck [1, 3, 6] (0 : ℚ) (by norm_num)
    rw [bin_search]
    norm_num
    match fuel with
    | 0 => rfl
    | n + 1 =>
      match n with
      | 0 => simp only [binLoop, hstep2]
      | m + 1 =>
        simp only [binLoop, hstep2, hstep1]
        exact hstuck m

/-- Witness for the amended C1: its soundness part applied at the table
1, 3, 6 with draw 3 and returned index 1. -/
theorem c1_bin_search_rule_witness :
    [(1 : ℚ), 3, 6].getD 1 0 ≤ 3 ∧
      (1 = [(1 : ℚ), 3, 6].length - 1 ∨ (3 : ℚ) < [(1 : ℚ), 3, 6].getD 2 0) :=
  c1_bin_search_rule.1 8 [1, 3, 6] 3 1 (by norm_num [bin_search, binLoop, binStep])

/-- C2: for a nonempty distribution with a well-formed cumulative table
(nondecreasing, last entry the total) and any draw in the interval from 0
to the total, Gram.bin_search never returns Python's None, stated both
negatively and positively: whatever the search returns within any fuel is
a found index, because the return-None path after the loop needs lo to
overtake hi, which the loop structure forbids on a nonempty array (once
hi has moved, the value at hi is at least the probe, so the overtaking
step cannot fire).  The not-found result is impossible outright; the only
other behaviour the code can show on these draws is the divergence
recorded under C1 and C10, which produces no result at all, not a
not-found one. -/
theorem c2_bin_search_never_notfound (cum : List ℚ) (prob : ℚ) (fuel : Nat)
    (hne : cum ≠ []) (_hmono : List.Chain' (· ≤ ·) cum) (_h0 : 0 ≤ prob)
    (_hlt : prob < cum.getD (cum.length - 1) 0) :
    bin_search fuel cum prob ≠ some none ∧
    ∀ r, bin_search fuel cum prob = some r → ∃ i, r = some i := by
  have hlen : cum.length ≠ 0 := by simpa using hne
  have hno : bin_search fuel cum prob ≠ some none := by
    rw [bin_search, if_neg hlen]
    exact binLoop_never_none cum prob fuel 0 (cum.length - 1)
      (Nat.zero_le _) (by omega) (Or.inl rfl)
  refine ⟨hno, ?_⟩
  intro r hr
  rcases r with - | i
  · exact absurd hr hno
  · exact ⟨i, rfl⟩

/-- Witness for C2 at the cumulative table 1, 3, 6 with draw 2.5: the
search does not report not-found there (it returns the index 0). -/
theorem c2_bin_search_never_notfound_witness :
    bin_search 5 [(1 : ℚ), 3, 6] (5 / 2) ≠ some none :=
  (c2_bin_search_never_notfound [1, 3, 6] (5 / 2) 5 (by simp)
    (by norm_num [List.chain'_cons]) (by norm_num) (by norm_num)).1

end Grams

namespace Grams

theorem bucketFind_upsert (b : List (Nat × Nat)) (k v k' : Nat) :
    bucketFind (bucketUpsert b k v) k' =
      if k = k' then some (k, v) else bucketFind b k' := by
  induction b with
  | nil => by_cases h : k = k' <;> simp [bucketUpsert, bucketFind, h]
  | cons e rest ih =>
    by_cases he : e.1 = k
    · by_cases h : k = k'
      · simp [bucketUpsert, he, bucketFind, h]
      · have he' : ¬ e.1 = k' := fun hx => h (he.symm.trans hx)
        simp [bucketUpsert, he, bucketFind, h, he']
    · rw [bucketUpsert, if_neg he]
      by_cases he' : e.1 = k'
      · have h : ¬ k = k' := fun hx => he (he'.trans hx.symm)
        simp [bucketFind, he', h]
      · simp [bucketFind, he', ih]

theorem bucketUpsert_length (b : List (Nat × Nat)) (k v : Nat) :
    (bucketUpsert b k v).length =
      b.length + (if (bucketFind b k).isSome then 0 else 1) := by
  induction b with
  | nil => simp [bucketUpsert, bucketFind]
  | cons e rest ih =>
    by_cases he : e.1 = k
    · simp [bucketUpsert, he, bucketFind]
    · have hf : bucketFind (e :: rest) k = bucketFind rest k := by
        rw [bucketFind, if_neg he]
      simp only [bucketUpsert, if_neg he, List.length_cons, hf, ih]
      omega

theorem bucketRemove_none (b : List (Nat × Nat)) (k : Nat) :
    bucketRemove b k = none ↔ bucketFind b k = none := by
  induction b with
  | nil => simp [bucketRemove, bucketFind]
  | cons e rest ih =>
    by_cases he : e.1 = k
    · simp [bucketRemove, he, bucketFind]
    · simpa [bucketRemove, he, bucketFind] using ih

theorem bucketRemove_length (b b' : List (Nat × Nat)) (k : Nat)
    (h : bucketRemove b k = some b') : b'.length + 1 = b.length := by
  induction b generalizing b' with
  | nil => simp [bucketRemove] at h
  | cons e rest ih =>
    by_cases he : e.1 = k
    · simp only [bucketRemove, if_pos he, Option.some.injEq] at h
      subst h; simp
    · simp only [bucketRemove, if_neg he, Option.map_eq_some'] at h
      obtain ⟨b0, hb0, rfl⟩ := h
      simp [ih b0 hb0]

theorem bucketRemove_sublist (b b' : List (Nat × Nat)) (k : Nat)
    (h : bucketRemove b k = some b') : b'.Sublist b := by
  induction b generalizing b' with
  | nil => simp [bucketRemove] at h
  | cons e rest ih =>
    by_cases he : e.1 = k
    · simp only [bucketRemove, if_pos he, Option.some.injEq] at h
      subst h; exact List.sublist_cons_self e rest
    · simp only [bucketRemove, if_neg he, Option.map_eq_some'] at h
      obtain ⟨b0, hb0, rfl⟩ := h
      exact List.Sublist.cons₂ e (ih b0 hb0)

theorem bucketFind_remove_ne (b b' : List (Nat × Nat)) (k k' : Nat) (hk : k' ≠ k)
    (h : bucketRemove b k = some b') : bucketFind b' k' = bucketFind b k' := by
  induction b generalizing b' with
  | nil => simp [bucketRemove] at h
  | cons e rest ih =>
    by_cases he : e.1 = k
    · simp only [bucketRemove, if_pos he, Option.some.injEq] at h
      subst h
      have he' : ¬ e.1 = k' := fun hx => hk (hx.symm.trans he)
      simp [bucketFind, he']
    · simp only [bucketRemove, if_neg he, Option.map_eq_some'] at h
      obtain ⟨b0, hb0, rfl⟩ := h
      by_cases he' : e.1 = k'
      · simp [bucketFind, he']
      · simpa [bucketFind, he'] using ih b0 hb0

theorem bucketFind_eq_none (b : List (Nat × Nat)) (k : Nat) :
    bucketFind b k = none ↔ k ∉ b.map Prod.fst := by
  induction b with
  | nil => simp [bucketFind]
  | cons e rest ih =>
    by_cases he : e.1 = k
    · simp [bucketFind, he]
    · have hke : ¬ k = e.1 := fun hx => he hx.symm
      simp [bucketFind, he, hke, ih]

theorem bucketFind_remove_self :
    ∀ (b b' : List (Nat × Nat)) (k : Nat), NodupKeys b →
      bucketRemove b k = some b' → bucketFind b' k = none := by
  intro b
  induction b with
  | nil => intro b' k _ h; simp [bucketRemove] at h
  | cons e rest ih =>
    intro b' k hnd h
    rw [NodupKeys, List.map_cons, List.nodup_cons] at hnd
    obtain ⟨hne, hnd⟩ := hnd
    by_cases he : e.1 = k
    · simp only [bucketRemove, if_pos he, Option.some.injEq] at h
      subst h
      rw [bucketFind_eq_none]
      exact he ▸ hne
    · simp only [bucketRemove, if_neg he, Option.map_eq_some'] at h
      obtain ⟨b0, hb0, rfl⟩ := h
      simpa [bucketFind, he] using ih b0 k hnd hb0

theorem bucketUpsert_keys (b : List (Nat × Nat)) (k v : Nat) :
    (bucketUpsert b k v).map Prod.fst =
      if (bucketFind b k).isSome then b.map Prod.fst else b.map Prod.fst ++ [k] := by
  induction b with
  | nil => simp [bucketUpsert, bucketFind]
  | cons e rest ih =>
    by_cases he : e.1 = k
    · simp [bucketUpsert, he, bucketFind]
    · simp only [bucketUpsert, if_neg he, List.map_cons, bucketFind]
      rw [ih]
      by_cases hf : (bucketFind rest k).isSome <;> simp [he, hf]

theorem NodupKeys_upsert (b : List (Nat × Nat)) (k v : Nat) (hnd : NodupKeys b) :
    NodupKeys (bucketUpsert b k v) := by
  have hnd' : (b.map Prod.fst).Nodup := hnd
  rw [NodupKeys, bucketUpsert_keys]
  by_cases hf : (bucketFind b k).isSome
  · simpa [hf] using hnd'
  · rw [if_neg hf]
    have hk : k ∉ b.map Prod.fst :=
      (bucketFind_eq_none b k).mp (Option.not_isSome_iff_eq_none.mp hf)
    rw [List.nodup_append_comm, List.singleton_append, List.nodup_cons]
    exact ⟨hk, hnd'⟩

theorem NodupKeys_remove (b b' : List (Nat × Nat)) (k : Nat) (hnd : NodupKeys b)
    (h : bucketRemove b k = some b') : NodupKeys b' :=
  List.Nodup.sublist ((bucketRemove_sublist b b' k h).map Prod.fst) hnd

theorem hashSet_buckets_length (hash : Nat → Nat) (t : HashTable) (k v : Nat) :
    (hashSet hash t k v).buckets.length = t.buckets.length := by
  simp [hashSet]

theorem hashDelete_buckets_length (hash : Nat → Nat) (t : HashTable) (k : Nat) :
    (hashDelete hash t k).1.buckets.length = t.buckets.length := by
  rw [hashDelete]
  rcases h : bucketRemove (t.buckets.getD (bucketIndex hash t k) []) k with - | b <;> simp

theorem bucketIndex_lt (hash : Nat → Nat) (t : HashTable) (k : Nat)
    (hn : 0 < t.buckets.length) : bucketIndex hash t k < t.buckets.length :=
  Nat.mod_lt _ hn

theorem bucketIndex_hashSet (hash : Nat → Nat) (t : HashTable) (k v k' : Nat) :
    bucketIndex hash (hashSet hash t k v) k' = bucketIndex hash t k' := by
  simp [bucketIndex, hashSet]

theorem bucketIndex_hashDelete (hash : Nat → Nat) (t : HashTable) (k k' : Nat) :
    bucketIndex hash (hashDelete hash t k).1 k' = bucketIndex hash t k' := by
  rw [bucketIndex, bucketIndex, hashDelete_buckets_length]

theorem hashGet_hashSet (hash : Nat → Nat) (t : HashTable) (k v k' : Nat)
    (hn : 0 < t.buckets.length) :
    hashGet hash (hashSet hash t k v) k' =
      if k = k' then some v else hashGet hash t k' := by
  have hlt := bucketIndex_lt hash t k hn
  by_cases hb : bucketIndex hash t k' = bucketIndex hash t k
  · rw [hashGet, bucketIndex_hashSet, hb]
    have : (hashSet hash t k v).buckets.getD (bucketIndex hash t k) [] =
        bucketUpsert (t.buckets.getD (bucketIndex hash t k) []) k v := by
      rw [hashSet]
      rw [List.getD_eq_getElem _ _ (by simpa using hlt)]
      simp [List.getElem_set_self]
    rw [this, bucketFind_upsert]
    by_cases h : k = k'
    · simp [h]
    · simp only [if_neg h]
      rw [hashGet, hb]
  · rw [hashGet, bucketIndex_hashSet]
    have hne : k ≠ k' := by
      intro hx
      exact hb (by rw [hx])
    have : (hashSet hash t k v).buckets.getD (bucketIndex hash t k') [] =
        t.buckets.getD (bucketIndex hash t k') [] := by
      rw [hashSet]
      by_cases hlt' : bucketIndex hash t k' < t.buckets.length
      · rw [List.getD_eq_getElem _ _ (by simpa using hlt'),
          List.getElem_set_ne (fun hx => hb hx.symm), List.getD_eq_getElem _ _ hlt']
      · rw [List.getD_eq_default _ _ (by simpa using Nat.le_of_not_lt hlt'),
          List.getD_eq_default _ _ (Nat.le_of_not_lt hlt')]
    rw [this, if_neg (fun hx => hne hx)]
    rw [hashGet]

theorem hashGet_hashDelete (hash : Nat → Nat) (t : HashTable) (k k' : Nat)
    (hinv : TableInv t) :
    hashGet hash (hashDelete hash t k).1 k' =
      if k = k' then none else hashGet hash t k' := by
  rcases hrem : bucketRemove (t.buckets.getD (bucketIndex hash t k) []) k with - | b'
  · have hd : (hashDelete hash t k).1 = t := by rw [hashDelete, hrem]
    rw [hd]
    by_cases h : k = k'
    · subst h
      rw [if_pos rfl, hashGet, (bucketRemove_none _ _).mp hrem]
    · rw [if_neg h]
  · have hd : (hashDelete hash t k).1 =
        ⟨t.buckets.set (bucketIndex hash t k) b', t.table_size - 1⟩ := by
      rw [hashDelete, hrem]
    have hlt : bucketIndex hash t k < t.buckets.length := by
      by_contra hcon
      rw [List.getD_eq_default _ _ (Nat.le_of_not_lt hcon)] at hrem
      simp [bucketRemove] at hrem
    have hnd : NodupKeys (t.buckets.getD (bucketIndex hash t k) []) := by
      rw [List.getD_eq_getElem _ _ hlt]
      exact hinv _ (List.getElem_mem hlt)
    rw [hd]
    have hbi : ∀ k'', bucketIndex hash
        ⟨t.buckets.set (bucketIndex hash t k) b', t.table_size - 1⟩ k'' =
        bucketIndex hash t k'' := by
      intro k''
      simp [bucketIndex]
    by_cases hb : bucketIndex hash t k' = bucketIndex hash t k
    · rw [hashGet, hbi, hb]
      have hgot : (t.buckets.set (bucketIndex hash t k) b').getD
          (bucketIndex hash t k) [] = b' := by
        rw [List.getD_eq_getElem _ _ (by simpa using hlt), List.getElem_set_self]
      rw [hgot]
      by_cases h : k = k'
      · subst h
        rw [if_pos rfl, bucketFind_remove_self _ b' _ hnd hrem]
      · rw [if_neg h, bucketFind_remove_ne _ _ _ _ (fun hx => h hx.symm) hrem,
          hashGet, hb]
    · have hne : ¬ k = k' := fun hx => hb (by rw [hx])
      rw [if_neg hne, hashGet, hbi]
      have hsame : (t.buckets.set (bucketIndex hash t k) b').getD
          (bucketIndex hash t k') [] = t.buckets.getD (bucketIndex hash t k') [] := by
        by_cases hlt' : bucketIndex hash t k' < t.buckets.length
        · rw [List.getD_eq_getElem _ _ (by simpa using hlt'),
            List.getElem_set_ne (fun hx => hb hx.symm), List.getD_eq_getElem _ _ hlt']
        · rw [List.getD_eq_default _ _ (by simpa using Nat.le_of_not_lt hlt'),
            List.getD_eq_default _ _ (Nat.le_of_not_lt hlt')]
      rw [hsame, hashGet]

theorem NodupKeys_nil : NodupKeys [] := by
  simp [NodupKeys]

theorem NodupKeys_getD (t : HashTable) (hinv : TableInv t) (i : Nat) :
    NodupKeys (t.buckets.getD i []) := by
  by_cases hlt : i < t.buckets.length
  · rw [List.getD_eq_getElem _ _ hlt]
    exact hinv _ (List.getElem_mem hlt)
  · rw [List.getD_eq_default _ _ (Nat.le_of_not_lt hlt)]
    exact NodupKeys_nil

theorem TableInv_hashSet (hash : Nat → Nat) (t : HashTable) (k v : Nat)
    (hinv : TableInv t) : TableInv (hashSet hash t k v) := by
  intro b hb
  rw [hashSet] at hb
  rcases List.mem_or_eq_of_mem_set hb with h | rfl
  · exact hinv b h
  · exact NodupKeys_upsert _ k v (NodupKeys_getD t hinv _)

theorem TableInv_hashDelete (hash : Nat → Nat) (t : HashTable) (k : Nat)
    (hinv : TableInv t) : TableInv (hashDelete hash t k).1 := by
  rcases hrem : bucketRemove (t.buckets.getD (bucketIndex hash t k) []) k with - | b'
  · have hd : (hashDelete hash t k).1 = t := by rw [hashDelete, hrem]
    rw [hd]; exact hinv
  · have hd : (hashDelete hash t k).1 =
        ⟨t.buckets.set (bucketIndex hash t k) b', t.table_size - 1⟩ := by
      rw [hashDelete, hrem]
    rw [hd]
    intro b hb
    rcases List.mem_or_eq_of_mem_set hb with h | rfl
    · exact hinv b h
    · exact NodupKeys_remove _ b k (NodupKeys_getD t hinv _) hrem

theorem TableInv_applyOp (hash : Nat → Nat) (t : HashTable) (op : Op)
    (hinv : TableInv t) : TableInv (applyOp hash t op) := by
  cases op with
  | set k v => exact TableInv_hashSet hash t k v hinv
  | del k => exact TableInv_hashDelete hash t k hinv

theorem applyOp_buckets_length (hash : Nat → Nat) (t : HashTable) (op : Op) :
    (applyOp hash t op).buckets.length = t.buckets.length := by
  cases op with
  | set k v => exact hashSet_buckets_length hash t k v
  | del k => exact hashDelete_buckets_length hash t k

theorem hashGet_applyOp (hash : Nat → Nat) (t : HashTable) (op : Op) (k : Nat)
    (hn : 0 < t.buckets.length) (hinv : TableInv t) :
    hashGet hash (applyOp hash t op) k = wstep k (hashGet hash t k) op := by
  cases op with
  | set k' v => rw [applyOp, wstep, hashGet_hashSet hash t k' v k hn]
  | del k' => rw [applyOp, wstep, hashGet_hashDelete hash t k' k hinv]

theorem runOps_get (hash : Nat → Nat) :
    ∀ (ops : List Op) (t : HashTable) (k : Nat), 0 < t.buckets.length → TableInv t →
      hashGet hash (runOps hash t ops) k = ops.foldl (wstep k) (hashGet hash t k) := by
  intro ops
  induction ops with
  | nil => intro t k _ _; rfl
  | cons op ops ih =>
    intro t k hn hinv
    have h1 : runOps hash t (op :: ops) = runOps hash (applyOp hash t op) ops := rfl
    have h2 : (op :: ops).foldl (wstep k) (hashGet hash t k) =
        ops.foldl (wstep k) (wstep k (hashGet hash t k) op) := rfl
    rw [h1, h2, ← hashGet_applyOp hash t op k hn hinv]
    exact ih (applyOp hash t op) k
      (by rw [applyOp_buckets_length]; exact hn)
      (TableInv_applyOp hash t op hinv)

theorem hashGet_hashInit (hash : Nat → Nat) (n k : Nat) :
    hashGet hash (hashInit n) k = none := by
  rw [hashGet]
  have hb : (hashInit n).buckets.getD (bucketIndex hash (hashInit n) k) [] = [] := by
    by_cases hlt : bucketIndex hash (hashInit n) k < (hashInit n).buckets.length
    · rw [List.getD_eq_getElem _ _ hlt]
      simp [hashInit]
    · rw [List.getD_eq_default _ _ (Nat.le_of_not_lt hlt)]
  rw [hb]
  rfl

theorem TableInv_hashInit (n : Nat) : TableInv (hashInit n) := by
  intro b hb
  rw [hashInit] at hb
  rw [List.eq_of_mem_replicate hb]
  exact NodupKeys_nil

theorem sum_map_length_set (l : List (List (Nat × Nat))) (i : Nat)
    (x : List (Nat × Nat)) (h : i < l.length) :
    ((l.set i x).map List.length).sum + (l.getD i []).length =
      (l.map List.length).sum + x.length := by
  induction l generalizing i with
  | nil => simp at h
  | cons b rest ih =>
    cases i with
    | zero => simp [List.getD_cons_zero]; omega
    | succ n =>
      simp only [List.set, List.map_cons, List.sum_cons, List.getD_cons_succ]
      have := ih n (by simpa using Nat.lt_of_succ_lt_succ h)
      omega

theorem hashGet_isSome (hash : Nat → Nat) (t : HashTable) (k : Nat) :
    (hashGet hash t k).isSome =
      (bucketFind (t.buckets.getD (bucketIndex hash t k) []) k).isSome := by
  rw [hashGet]
  rcases bucketFind (t.buckets.getD (bucketIndex hash t k) []) k with - | e <;> rfl

theorem hashSet_table_size (hash : Nat → Nat) (t : HashTable) (k v : Nat) :
    (hashSet hash t k v).table_size =
      t.table_size + (if (hashGet hash t k).isSome then 0 else 1) := by
  rw [hashSet]
  have hup := bucketUpsert_length (t.buckets.getD (bucketIndex hash t k) []) k v
  rw [hashGet_isSome]
  rcases hf : (bucketFind (t.buckets.getD (bucketIndex hash t k) []) k) with - | e <;>
    rw [hf] at hup <;> simp only [hup] <;> push_cast <;> ring

theorem SizeInv_hashSet (hash : Nat → Nat) (t : HashTable) (k v : Nat)
    (hn : 0 < t.buckets.length) (hs : SizeInv t) : SizeInv (hashSet hash t k v) := by
  rw [SizeInv, hashSet]
  have hsum := sum_map_length_set t.buckets (bucketIndex hash t k)
    (bucketUpsert (t.buckets.getD (bucketIndex hash t k) []) k v)
    (bucketIndex_lt hash t k hn)
  rw [SizeInv] at hs
  rw [hashLength] at hs ⊢
  simp only []
  omega

theorem SizeInv_hashDelete (hash : Nat → Nat) (t : HashTable) (k : Nat)
    (hs : SizeInv t) : SizeInv (hashDelete hash t k).1 := by
  rcases hrem : bucketRemove (t.buckets.getD (bucketIndex hash t k) []) k with - | b'
  · have hd : (hashDelete hash t k).1 = t := by rw [hashDelete, hrem]
    rw [hd]; exact hs
  · have hd : (hashDelete hash t k).1 =
        ⟨t.buckets.set (bucketIndex hash t k) b', t.table_size - 1⟩ := by
      rw [hashDelete, hrem]
    have hlt : bucketIndex hash t k < t.buckets.length := by
      by_contra hcon
      rw [List.getD_eq_default _ _ (Nat.le_of_not_lt hcon)] at hrem
      simp [bucketRemove] at hrem
    have hlen := bucketRemove_length _ b' k hrem
    have hsum := sum_map_length_set t.buckets (bucketIndex hash t k) b' hlt
    rw [SizeInv] at hs
    rw [hd, SizeInv, hashLength] at *
    simp only []
    omega

theorem SizeInv_runOps (hash : Nat → Nat) :
    ∀ (ops : List Op) (t : HashTable), 0 < t.buckets.length → SizeInv t →
      SizeInv (runOps hash t ops) := by
  intro ops
  induction ops with
  | nil => intro t _ hs; exact hs
  | cons op ops ih =>
    intro t hn hs
    have h1 : runOps hash t (op :: ops) = runOps hash (applyOp hash t op) ops := rfl
    rw [h1]
    refine ih (applyOp hash t op) (by rw [applyOp_buckets_length]; exact hn) ?_
    cases op with
    | set k v => exact SizeInv_hashSet hash t k v hn hs
    | del k => exact SizeInv_hashDelete hash t k hs

/-- C5: for every finite sequence of set and delete operations run on a
fresh table (any bucket count above zero, any hash function) and every
key, a get after the sequence returns the value of the most recent set of
that key not followed by a delete of that key, and none (NotFound) when
there is no such set. -/
theorem c5_hashtable_get_lastwrite (hash : Nat → Nat) (n : Nat) (ops : List Op)
    (k : Nat) (hn : 0 < n) :
    hashGet hash (runOps hash (hashInit n) ops) k = lastWrite ops k := by
  have h := runOps_get hash ops (hashInit n) k
    (by simpa [hashInit] using hn) (TableInv_hashInit n)
  rw [h, hashGet_hashInit, lastWrite]

/-- Witness for C5: on a four-bucket table with identity hash, after
setting key 1, setting key 2 and deleting key 1, a get of key 1 is
NotFound. -/
theorem c5_hashtable_get_lastwrite_witness :
    hashGet (fun x => x)
      (runOps (fun x => x) (hashInit 4) [Op.set 1 5, Op.set 2 7, Op.del 1]) 1 = none :=
  (c5_hashtable_get_lastwrite (fun x => x) 4 [Op.set 1 5, Op.set 2 7, Op.del 1] 1
    (by decide)).trans (by decide)

/-- C6: after every operation sequence on a fresh table the tracked entry
count table_size equals the sum of the bucket lengths, and a single set
grows table_size by exactly one when the key is new and by zero when it
replaces the value of a present key. -/
theorem c6_hashtable_size_invariant (hash : Nat → Nat) :
    (∀ (n : Nat) (ops : List Op), 0 < n →
      (runOps hash (hashInit n) ops).table_size =
        (hashLength (runOps hash (hashInit n) ops) : Int)) ∧
    (∀ (t : HashTable) (k v : Nat),
      (hashSet hash t k v).table_size =
        t.table_size + (if (hashGet hash t k).isSome then 0 else 1)) := by
  constructor
  · intro n ops hn
    exact SizeInv_runOps hash ops (hashInit n) (by simpa [hashInit] using hn)
      (by rw [SizeInv]; simp [hashInit, hashLength])
  · intro t k v
    exact hashSet_table_size hash t k v

/-- Witness for C6: on a four-bucket table with identity hash, after
setting key 1 twice and deleting it, the tracked count equals the summed
bucket lengths. -/
theorem c6_size_invariant_witness :
    (runOps (fun x => x) (hashInit 4) [Op.set 1 5, Op.set 1 7, Op.del 1]).table_size =
      (hashLength (runOps (fun x => x) (hashInit 4)
        [Op.set 1 5, Op.set 1 7, Op.del 1]) : Int) :=
  (c6_hashtable_size_invariant (fun x => x)).1 4 [Op.set 1 5, Op.set 1 7, Op.del 1]
    (by decide)

/-- C7: for every table state and key, a delete of an absent key fails
with NotFound and returns the table unchanged, while a delete of a
present key succeeds and decrements the tracked entry count by exactly
one. -/
theorem c7_hashtable_delete (hash : Nat → Nat) (t : HashTable) (k : Nat) :
    (hashGet hash t k = none → hashDelete hash t k = (t, false)) ∧
    (hashGet hash t k ≠ none →
      (hashDelete hash t k).2 = true ∧
      (hashDelete hash t k).1.table_size = t.table_size - 1) := by
  constructor
  · intro h
    have hf : bucketFind (t.buckets.getD (bucketIndex hash t k) []) k = none := by
      rw [hashGet] at h
      rcases hx : bucketFind (t.buckets.getD (bucketIndex hash t k) []) k with - | e
      · rfl
      · rw [hx] at h; simp at h
    rw [hashDelete, (bucketRemove_none _ _).mpr hf]
  · intro h
    rcases hrem : bucketRemove (t.buckets.getD (bucketIndex hash t k) []) k with - | b'
    · exfalso
      apply h
      rw [hashGet, (bucketRemove_none _ _).mp hrem]
    · rw [hashDelete, hrem]
      exact ⟨rfl, rfl⟩

/-- Witness for C7: deleting the absent key 2 from a table holding only
key 1 fails and leaves the table unchanged. -/
theorem c7_delete_witness :
    hashDelete (fun x => x) (hashSet (fun x => x) (hashInit 2) 1 5) 2 =
      (hashSet (fun x => x) (hashInit 2) 1 5, false) :=
  (c7_hashtable_delete (fun x => x) (hashSet (fun x => x) (hashInit 2) 1 5) 2).1
    (by decide)

theorem lookupCount_mergeAdd (m : List (Nat × Nat)) (d : Nat × Nat) (w : Nat) :
    lookupCount (mergeAdd m d) w =
      if d.1 = w then some ((lookupCount m w).getD 0 + d.2)
      else lookupCount m w := by
  induction m with
  | nil =>
    by_cases h : d.1 = w <;> simp [mergeAdd, lookupCount, h]
  | cons e rest ih =>
    by_cases he : e.1 = d.1
    · by_cases h : d.1 = w
      · have hew : e.1 = w := he.trans h
        simp [mergeAdd, he, lookupCount, hew, h]
      · have hew : ¬ e.1 = w := fun hx => h (he.symm.trans hx)
        simp [mergeAdd, he, lookupCount, hew, h]
    · rw [mergeAdd, if_neg he]
      by_cases hew : e.1 = w
      · have h : ¬ d.1 = w := fun hx => he (hew.trans hx.symm)
        simp [lookupCount, hew, h]
      · simp [lookupCount, hew, ih]

theorem getD_lookupCount_mergeInts (deltas : List (Nat × Nat)) :
    ∀ (m : List (Nat × Nat)) (w : Nat),
      (lookupCount (mergeInts m deltas) w).getD 0 =
        (lookupCount m w).getD 0 + sumDeltas deltas w := by
  induction deltas with
  | nil => intro m w; simp [mergeInts, sumDeltas]
  | cons d rest ih =>
    intro m w
    have h1 : mergeInts m (d :: rest) = mergeInts (mergeAdd m d) rest := rfl
    rw [h1, sumDeltas, ih (mergeAdd m d) w, lookupCount_mergeAdd]
    by_cases h : d.1 = w
    · simp only [if_pos h, Option.getD_some]
      omega
    · simp only [if_neg h]
      omega

theorem sumDeltas_mergeAdd (t : List (Nat × Nat)) (d : Nat × Nat) (w : Nat) :
    sumDeltas (mergeAdd t d) w = sumDeltas t w + (if d.1 = w then d.2 else 0) := by
  induction t with
  | nil => simp [mergeAdd, sumDeltas]
  | cons e rest ih =>
    by_cases he : e.1 = d.1
    · by_cases h : d.1 = w
      · have hew : e.1 = w := he.trans h
        simp [mergeAdd, he, sumDeltas, hew, h]
        omega
      · have hew : ¬ e.1 = w := fun hx => h (he.symm.trans hx)
        simp [mergeAdd, he, sumDeltas, hew, h]
    · rw [mergeAdd, if_neg he]
      rw [sumDeltas, sumDeltas, ih]
      omega

theorem sumDeltas_mergeInts (adds : List (Nat × Nat)) :
    ∀ (t : List (Nat × Nat)) (w : Nat),
      sumDeltas (mergeInts t adds) w = sumDeltas t w + sumDeltas adds w := by
  induction adds with
  | nil => intro t w; simp [mergeInts, sumDeltas]
  | cons d rest ih =>
    intro t w
    have h1 : mergeInts t (d :: rest) = mergeInts (mergeAdd t d) rest := rfl
    rw [h1, ih (mergeAdd t d) w, sumDeltas_mergeAdd, sumDeltas]
    omega

theorem Listogram.listo_addSeq_state (adds : List (Nat × Nat)) :
    ∀ (s : Listogram), s.addSeq adds =
      ⟨s.word_to_freq, s.temp_word_to_freq ++ adds,
        if adds.isEmpty then s.queued else true⟩ := by
  induction adds with
  | nil => intro s; simp [Listogram.addSeq]
  | cons d rest ih =>
    intro s
    have h1 : s.addSeq (d :: rest) = (s.add_count d.1 d.2).addSeq rest := rfl
    rw [h1, ih]
    simp [Listogram.add_count]

theorem Dictogram.dicto_addSeq_state (adds : List (Nat × Nat)) :
    ∀ (s : Dictogram), s.addSeq adds =
      ⟨s.word_to_freq, mergeInts s.temp_word_to_freq adds,
        if adds.isEmpty then s.queued else true⟩ := by
  induction adds with
  | nil => intro s; simp [Dictogram.addSeq, mergeInts]
  | cons d rest ih =>
    intro s
    have h1 : s.addSeq (d :: rest) = (s.add_count d.1 d.2).addSeq rest := rfl
    rw [h1, ih]
    simp [Dictogram.add_count, mergeInts]

theorem Listogram.read_merges (m adds : List (Nat × Nat)) :
    ((Listogram.ofCounts m).addSeq adds).rebuild_with_latent_wordcounts.word_to_freq =
      mergeInts m adds := by
  rw [Listogram.listo_addSeq_state adds (Listogram.ofCounts m)]
  rcases adds with - | ⟨d, rest⟩
  · simp [Listogram.ofCounts, Listogram.rebuild_with_latent_wordcounts, mergeInts]
  · simp [Listogram.ofCounts, Listogram.rebuild_with_latent_wordcounts]

theorem Listogram.listo_frequency_after_adds (m adds : List (Nat × Nat)) (w : Nat) :
    ((Listogram.ofCounts m).addSeq adds).frequency w =
      (lookupCount m w).getD 0 + sumDeltas adds w := by
  rw [Listogram.frequency, Listogram.read_merges, getD_lookupCount_mergeInts]

theorem Dictogram.dicto_frequency_after_adds (m adds : List (Nat × Nat)) (w : Nat) :
    ((Dictogram.ofCounts m).addSeq adds).frequency w =
      (lookupCount m w).getD 0 + sumDeltas adds w := by
  rw [Dictogram.frequency, Dictogram.dicto_addSeq_state adds (Dictogram.ofCounts m)]
  rcases adds with - | ⟨d, rest⟩
  · simp [Dictogram.ofCounts, Dictogram.rebuild_with_latent_wordcounts, sumDeltas]
  · simp only [Dictogram.ofCounts, List.isEmpty_cons, Bool.false_eq_true, if_false,
      Dictogram.rebuild_with_latent_wordcounts, if_true,
      getD_lookupCount_mergeInts, sumDeltas_mergeInts]
    simp [sumDeltas]

/-- C8 evaluation at the failing input: start empty, add_count of word 0
by 2, a first read (which merges and, per the claim, should clear the
buffer), add_count of word 0 by 1, then a second read.  The source never
clears temp_word_to_freq, so the second merge re-applies the first delta
and frequency answers 5 where the claimed lifecycle yields 3. -/
theorem c8_buffer_reapplied_run :
    Listogram.frequency
      (Listogram.add_count
        (Listogram.rebuild_with_latent_wordcounts
          (Listogram.add_count (Listogram.ofCounts []) 0 2)) 0 1) 0 = 5 := by
  decide

/-- C4: for Histogram (via the spec's FreqDist lookup contract) and for
Listogram and Dictogram states reached by construction plus add_count
bursts, frequency returns the stored (merged) count of a present word and
0 for an absent word; the embedding is a total function, so no error is
possible. -/
theorem c4_frequency_returns_count_or_zero (m adds : List (Nat × Nat)) (w : Nat) :
    (∀ c, lookupCount m w = some c → histFrequency m w = c) ∧
    (lookupCount m w = none → histFrequency m w = 0) ∧
    (∀ c, lookupCount (mergeInts m adds) w = some c →
      ((Listogram.ofCounts m).addSeq adds).frequency w = c ∧
      ((Dictogram.ofCounts m).addSeq adds).frequency w = c) ∧
    (lookupCount (mergeInts m adds) w = none →
      ((Listogram.ofCounts m).addSeq adds).frequency w = 0 ∧
      ((Dictogram.ofCounts m).addSeq adds).frequency w = 0) := by
  have hl := Listogram.listo_frequency_after_adds m adds w
  have hd := Dictogram.dicto_frequency_after_adds m adds w
  have hm := getD_lookupCount_mergeInts adds m w
  refine ⟨?_, ?_, ?_, ?_⟩
  · intro c hc
    rw [histFrequency, hc, Option.getD_some]
  · intro hc
    rw [histFrequency, hc, Option.getD_none]
  · intro c hc
    rw [hc, Option.getD_some] at hm
    exact ⟨by rw [hl, ← hm], by rw [hd, ← hm]⟩
  · intro hc
    rw [hc, Option.getD_none] at hm
    exact ⟨by rw [hl, ← hm], by rw [hd, ← hm]⟩

/-- Witness for C4: word 0 with count 2 plus a buffered delta of 3 reads
back as frequency 5 in both Listogram and Dictogram. -/
theorem c4_frequency_witness :
    ((Listogram.ofCounts [(0, 2)]).addSeq [(0, 3)]).frequency 0 = 5 ∧
    ((Dictogram.ofCounts [(0, 2)]).addSeq [(0, 3)]).frequency 0 = 5 :=
  (c4_frequency_returns_count_or_zero [(0, 2)] [(0, 3)] 0).2.2.1 5 (by decide)

end Grams
